import Mathlib

/-!
Verification of the in-process periodic task scheduler (`src/main.py`).

Shallow embedding conventions:
* A Python `datetime` instant is an `Int` counting microseconds since an
  arbitrary midnight epoch.  The program never uses calendar fields above
  the day level (no `year`/`month` replacement, no month arithmetic), so
  `hour`, `minute`, `second`, `microsecond` and `time()` are exact derived
  quantities:  `minute = (t / usPerMin) % 60`, `time() = t % usPerDay`, etc.
* A Python `timedelta` is an `Int` number of microseconds.
* Exceptions are modelled with `Except` / `Option PyErr`.  Methods that
  mutate `self` and may raise are `Job -> Job × Option PyErr`: the returned
  `Job` is the state of the object when the method returns or raises, so
  partial mutation before a raise is preserved (Python semantics).
* The module `utils.base_errors` is not part of the repository sources; it
  only supplies message strings.  `VKind` models which message a
  `SchedulerValueError` carries (`generic` for `scheduler_value_error()`,
  `hourWrong` for `hour_wrong`, `minuteWrong` for `minute_wrong`).
* `datetime.now()` is an injected instant parameter.  `_schedule_next_run`
  reads the clock at two places (line 137 and line 153 of the source), so
  its embedding takes two instants `now2`, `now3`.
-/

/-- The five valid values of `Job.unit` (the strings set by the
`seconds`/`minutes`/`hours`/`days`/`weeks` properties). -/
inductive TUnit
  | seconds
  | minutes
  | hours
  | days
  | weeks
deriving DecidableEq

/-- Which `base_errors` message a `SchedulerValueError` carries. -/
inductive VKind
  | generic
  | hourWrong
  | minuteWrong
deriving DecidableEq

/-- Exceptions observable from the embedded code: `SchedulerValueError`,
`IntervalError`, and the builtin `TypeError` / `ValueError`. -/
inductive PyErr
  | schedulerValueError (kind : VKind)
  | intervalError
  | typeError
  | valueError
deriving DecidableEq

/-- The behaviour of one invocation of a job's bound zero-argument callable:
either it raises, or it returns an (opaque, here `Int`-modelled) value. -/
abbrev PyAction := Except PyErr Int

instance : DecidableEq PyAction := fun x y =>
  match x, y with
  | .ok a, .ok b =>
      if h : a = b then .isTrue (by rw [h]) else .isFalse (fun hh => h (Except.ok.inj hh))
  | .error a, .error b =>
      if h : a = b then .isTrue (by rw [h]) else .isFalse (fun hh => h (Except.error.inj hh))
  | .ok _, .error _ => .isFalse Except.noConfusion
  | .error _, .ok _ => .isFalse Except.noConfusion

/-- A `datetime.time(hour, minute)` value (seconds and microseconds are
always zero at the single construction site, `Job.at`). -/
structure AtTime where
  hour : Nat
  minute : Nat
deriving DecidableEq

/-- The `Job` object of `src/main.py` (lines 52-60). -/
structure Job where
  interval : Int
  period : Option Int := none
  unit : Option TUnit := none
  job_func : Option PyAction := none
  last_run : Option Int := none
  next_run : Option Int := none
  at_time : Option AtTime := none
deriving DecidableEq

/-- `Job.__init__` (lines 53-60). -/
def Job.init (interval : Int) : Job := { interval := interval }

/-- Default element used with `List.getD`; never semantically relevant
(all indexed accesses are guarded by bounds facts). -/
def dJob : Job := Job.init 1

def usPerSec : Int := 1000000
def usPerMin : Int := 60000000
def usPerHour : Int := 3600000000
def usPerDay : Int := 86400000000

/-- Microseconds of `timedelta(**{unit: 1})`. -/
def unitUs : TUnit → Int
  | .seconds => usPerSec
  | .minutes => usPerMin
  | .hours => usPerHour
  | .days => usPerDay
  | .weeks => 604800000000

/-- `t.minute` of a datetime. -/
def minuteOf (t : Int) : Int := (t / usPerMin) % 60

/-- `t.second` of a datetime. -/
def secondOf (t : Int) : Int := (t / usPerSec) % 60

/-- `t.microsecond` of a datetime. -/
def microOf (t : Int) : Int := t % usPerSec

/-- `t.time()` of a datetime, as microseconds since its midnight. -/
def timeOfDay (t : Int) : Int := t % usPerDay

/-- A `datetime.time` value as microseconds since midnight; `time` objects
compare lexicographically by (hour, minute, second, microsecond), which
coincides with comparing this total count. -/
def atUs (a : AtTime) : Int := ((a.hour * 3600 + a.minute * 60 : Nat) : Int) * usPerSec

/-- `t - t % usPerHour`: the datetime with minute, second and microsecond
zeroed (start of `t`'s hour). -/
def hourFloor (t : Int) : Int := t - t % usPerHour

/-- Keyword names that `_schedule_next_run` ever places in the dict passed
to `datetime.replace` (lines 142-148).  Note the source writes `'hours'`,
which is not a parameter of `replace`. -/
inductive RKey
  | minute
  | second
  | microsecond
  | hours
deriving DecidableEq, BEq

/-- `datetime.replace(**kwargs)` for the keyword dicts the source builds:
an unknown keyword (`'hours'`) raises `TypeError`; out-of-range values
raise `ValueError`; otherwise the named sub-hour fields are replaced. -/
def pyReplace (t : Int) (kw : List (RKey × Nat)) : Except PyErr Int :=
  if kw.any fun p => p.1 == RKey.hours then .error .typeError
  else
    let m : Int := ((kw.lookup RKey.minute).map (fun n : Nat => (n : Int))).getD (minuteOf t)
    let s : Int := ((kw.lookup RKey.second).map (fun n : Nat => (n : Int))).getD (secondOf t)
    let u : Int := ((kw.lookup RKey.microsecond).map (fun n : Nat => (n : Int))).getD (microOf t)
    if 60 ≤ m ∨ 60 ≤ s ∨ usPerSec ≤ u then .error .valueError
    else .ok (t - t % usPerHour + m * usPerMin + s * usPerSec + u)

/-- `Job._schedule_next_run` (lines 130-157).  `now2` is the clock reading
of line 137, `now3` the one of line 153.  The returned `Job` is the state
of `self` on return or raise (partial mutation preserved). -/
def scheduleNextRun (now2 now3 : Int) (j : Job) : Job × Option PyErr :=
  match j.unit with
  | none => (j, some (.schedulerValueError .generic))
  | some u =>
    let p := j.interval * unitUs u
    let j1 : Job := { j with period := some p, next_run := some (now2 + p) }
    match j1.at_time with
    | none => (j1, none)
    | some a =>
      if u ≠ TUnit.hours ∧ u ≠ TUnit.days then
        (j1, some (.schedulerValueError .generic))
      else
        let kw := [(RKey.minute, a.minute), (RKey.second, 0), (RKey.microsecond, 0)]
          ++ (if u = TUnit.days then [(RKey.hours, a.hour)] else [])
        match pyReplace (now2 + p) kw with
        | .error e => (j1, some e)
        | .ok t =>
          let j2 : Job := { j1 with next_run := some t }
          match j2.last_run with
          | some _ => (j2, none)
          | none =>
            if u = TUnit.days ∧ atUs a > timeOfDay now3 then
              ({ j2 with next_run := some (t - usPerDay) }, none)
            else if u = TUnit.hours ∧ (a.minute : Int) > minuteOf now3 then
              ({ j2 with next_run := some (t - usPerHour) }, none)
            else (j2, none)

/-- `Job.run` (lines 159-163).  `now1` is the clock reading assigned to
`last_run` (line 161); `now2` is the reading inside `_schedule_next_run`.
Since `last_run` has just been set (datetimes are truthy), the line-153
clock read is unreachable, so `now2` is passed for it.  Third component:
the returned value of the action, when everything succeeds. -/
def Job.run (now1 now2 : Int) (j : Job) : Job × Option PyErr × Option Int :=
  match j.job_func with
  | none => (j, some .typeError, none)
  | some (.error e) => (j, some e, none)
  | some (.ok v) =>
    let j1 : Job := { j with last_run := some now1 }
    match scheduleNextRun now2 now2 j1 with
    | (j2, none) => (j2, none, some v)
    | (j2, some e) => (j2, some e, none)

/-- `Job.do` (lines 124-128): binds the callable, then schedules.  (`do` is
a Lean keyword, hence the underscore.)  `update_wrapper` only copies
metadata and is state-irrelevant. -/
def Job.do_ (now2 now3 : Int) (j : Job) (f : PyAction) : Job × Option PyErr :=
  let j1 : Job := { j with job_func := some f }
  scheduleNextRun now2 now3 j1

/-- `str.split(':')` on the list of characters. -/
def splitColon : List Char → List (List Char)
  | [] => [[]]
  | c :: rest =>
    let r := splitColon rest
    if c = ':' then [] :: r
    else
      match r with
      | [] => [[c]]
      | h :: t => (c :: h) :: t

def digitsValAux (acc : Nat) : List Char → Option Nat
  | [] => some acc
  | c :: rest => if c.isDigit then digitsValAux (acc * 10 + (c.toNat - 48)) rest else none

/-- Python `int(s)` on the strings used here: an optional sign followed by
decimal digits; anything else raises `ValueError`.  (Whitespace/underscore
forms accepted by CPython are not exercised by the program.) -/
def pyInt (cs : List Char) : Except PyErr Int :=
  match cs with
  | [] => .error .valueError
  | '+' :: rest =>
    match rest, digitsValAux 0 rest with
    | _ :: _, some n => .ok (n : Int)
    | _, _ => .error .valueError
  | '-' :: rest =>
    match rest, digitsValAux 0 rest with
    | _ :: _, some n => .ok (-(n : Int))
    | _, _ => .error .valueError
  | _ =>
    match digitsValAux 0 cs with
    | some n => .ok (n : Int)
    | none => .error .valueError

/-- `Job.at` (lines 165-185).  (`at` is a Lean keyword, hence the
underscore.)  For `unit == 'hours'` the hour component of the string is
never parsed: the local `hour` is overwritten with `0` (line 175). -/
def Job.at_ (j : Job) (time_value : String) : Job × Option PyErr :=
  if j.unit ≠ some TUnit.hours ∧ j.unit ≠ some TUnit.days then
    (j, some (.schedulerValueError .generic))
  else
    match splitColon time_value.toList with
    | [hStr, mStr] =>
      let hRes : Except PyErr Int :=
        if j.unit = some TUnit.days then
          match pyInt hStr with
          | .error e => .error e
          | .ok h =>
            if h < 0 ∨ 23 < h then .error (.schedulerValueError .hourWrong) else .ok h
        else .ok 0
      match hRes with
      | .error e => (j, some e)
      | .ok h =>
        match pyInt mStr with
        | .error e => (j, some e)
        | .ok m =>
          if m < 0 ∨ 59 < m then (j, some (.schedulerValueError .minuteWrong))
          else ({ j with at_time := some ⟨h.toNat, m.toNat⟩ }, none)
    | _ => (j, some .valueError)

/-- `Job.seconds` (property, lines 71-74). -/
def Job.seconds (j : Job) : Job := { j with unit := some TUnit.seconds }

/-- `Job.minutes` (lines 82-85). -/
def Job.minutes (j : Job) : Job := { j with unit := some TUnit.minutes }

/-- `Job.hours` (lines 93-96). -/
def Job.hours (j : Job) : Job := { j with unit := some TUnit.hours }

/-- `Job.days` (lines 104-107). -/
def Job.days (j : Job) : Job := { j with unit := some TUnit.days }

/-- `Job.weeks` (lines 115-118). -/
def Job.weeks (j : Job) : Job := { j with unit := some TUnit.weeks }

/-- `Job.second` (singular accessor, lines 65-69). -/
def Job.second (j : Job) : Job × Option PyErr :=
  if j.interval ≠ 1 then (j, some .intervalError) else (j.seconds, none)

/-- `Job.minute` (lines 76-80). -/
def Job.minute (j : Job) : Job × Option PyErr :=
  if j.interval ≠ 1 then (j, some .intervalError) else (j.minutes, none)

/-- `Job.hour` (lines 87-91). -/
def Job.hour (j : Job) : Job × Option PyErr :=
  if j.interval ≠ 1 then (j, some .intervalError) else (j.hours, none)

/-- `Job.day` (lines 98-102). -/
def Job.day (j : Job) : Job × Option PyErr :=
  if j.interval ≠ 1 then (j, some .intervalError) else (j.days, none)

/-- `Job.week` (lines 109-113). -/
def Job.week (j : Job) : Job × Option PyErr :=
  if j.interval ≠ 1 then (j, some .intervalError) else (j.weeks, none)

/-- `Job.should_run` (lines 120-122): comparing an absent `next_run`
against a datetime raises `TypeError` in Python 3. -/
def Job.should_run (j : Job) (now : Int) : Except PyErr Bool :=
  match j.next_run with
  | some t => .ok (decide (t ≤ now))
  | none => .error .typeError

/-- `Job.__lt__` (lines 62-63): note the body is `<=`, not `<`.  Raises
`TypeError` when either `next_run` is `None`. -/
def jobLtE (a b : Job) : Except PyErr Bool :=
  match a.next_run, b.next_run with
  | some x, some y => .ok (decide (x ≤ y))
  | _, _ => .error .typeError

/-- The registry is `Scheduler.jobs`, an insertion-ordered list. -/
def every (jobs : List Job) (interval : Int) : List Job × Nat :=
  (jobs ++ [Job.init interval], jobs.length)

/-- Sequential evaluation of a fallible filter, in list order: the order in
which `sorted(...)` consumes the `(job for job in self.jobs if
job.should_run)` generator on line 32. -/
def filterME (p : Nat → Except PyErr Bool) : List Nat → Except PyErr (List Nat)
  | [] => .ok []
  | x :: xs => do
    let b ← p x
    let r ← filterME p xs
    .ok (if b then x :: r else r)

/-- Indices (= object identities, in registration order) of the jobs that
pass `should_run` at `now`. -/
def dueIdxE (now : Int) (jobs : List Job) : Except PyErr (List Nat) :=
  filterME (fun i => (jobs.getD i dJob).should_run now) (List.range jobs.length)

/-- One insertion step of CPython's sort as driven by `Job.__lt__`:
the pivot is placed at the leftmost position `p` with `pivot < a[p]`
(binary insertion computes exactly this lower bound). -/
def insortIdxE (jobs : List Job) (i : Nat) : List Nat → Except PyErr (List Nat)
  | [] => .ok [i]
  | y :: ys => do
    let b ← jobLtE (jobs.getD i dJob) (jobs.getD y dJob)
    if b then .ok (i :: y :: ys)
    else
      let r ← insortIdxE jobs i ys
      .ok (y :: r)

/-- `sorted(...)` (line 33) on the filtered job references, modelled as
successive lower-bound insertions driven by `Job.__lt__` — the placement
CPython's sort performs with this comparator. -/
def sortIdxE (jobs : List Job) (ds : List Nat) : Except PyErr (List Nat) :=
  ds.foldlM (fun acc i => insortIdxE jobs i acc) []

/-- The due-job selection of `Scheduler.run_pending` (lines 31-33): filter
by `should_run`, then sort with `Job.__lt__`. -/
def dueSorted (now : Int) (jobs : List Job) : Except PyErr (List Nat) :=
  match dueIdxE now jobs with
  | .error e => .error e
  | .ok ds => sortIdxE jobs ds

/-- Sequential execution of the jobs at the given indices (`job.run()` loop
bodies of lines 33-34 and 37-39).  `clocks k` supplies the two
`datetime.now()` readings of the `k`-th executed job.  On a raise the loop
aborts; jobs already updated stay updated. -/
def execSeq (clocks : Nat → Int × Int) (jobs : List Job) : List Nat → List Job × Option PyErr
  | [] => (jobs, none)
  | i :: rest =>
    let r := Job.run (clocks 0).1 (clocks 0).2 (jobs.getD i dJob)
    let jobs1 := jobs.set i r.1
    match r.2.1 with
    | some e => (jobs1, some e)
    | none => execSeq (fun n => clocks (n + 1)) jobs1 rest

/-- `Scheduler.run_pending` (lines 31-34). -/
def run_pending (now : Int) (clocks : Nat → Int × Int) (jobs : List Job) :
    List Job × Option PyErr :=
  match dueSorted now jobs with
  | .error e => (jobs, some e)
  | .ok l => execSeq clocks jobs l

/-- `Scheduler.run_all` (lines 36-39): every job, in registration order,
regardless of due status.  `sleep(delay_second)` does not affect the
registry state (the clock is already explicit), so `delay_second` is
state-irrelevant here. -/
def run_all (delay_second : Int) (clocks : Nat → Int × Int) (jobs : List Job) :
    List Job × Option PyErr :=
  execSeq clocks jobs (List.range jobs.length)

/-- Builtin `min` over jobs, driven by `Job.__lt__` exactly as CPython's
`min` is: the running best is replaced whenever `item < best`. -/
def pyMinJob (jobs : List Job) : Except PyErr Job :=
  match jobs with
  | [] => .error .valueError
  | j :: rest =>
    rest.foldlM (fun best x => do
      let b ← jobLtE x best
      pure (if b then x else best)) j

/-- `Scheduler.next_run` (lines 41-45). -/
def next_run (jobs : List Job) : Except PyErr (Option Int) :=
  if jobs.isEmpty then .ok none
  else
    match pyMinJob jobs with
    | .error e => .error e
    | .ok m => .ok m.next_run

/-- `Scheduler.idle_seconds` (lines 47-49): `self.next_run -
datetime.now()`; subtracting a datetime from `None` raises `TypeError`. -/
def idle_seconds (now : Int) (jobs : List Job) : Except PyErr Int :=
  match next_run jobs with
  | .error e => .error e
  | .ok none => .error .typeError
  | .ok (some t) => .ok (t - now)

/-- Sort key actually compared by `Job.__lt__` for the job reference `i`
(defined via `getD`; only used where `next_run` is known present). -/
def keyOf (jobs : List Job) (i : Nat) : Int := ((jobs.getD i dJob).next_run).getD 0

/-! ## Claim C2 -/

/-- The C2 job: `every(1).days.at("09:00")`, never run. -/
def jC2 : Job := { Job.init 1 with unit := some TUnit.days, at_time := some ⟨9, 0⟩ }

/-- C2: the spec says that for `unit == days` with anchor `09:00`, no prior
run and `now = 08:00`, `nextRun` falls on today at 09:00.  The code instead
raises `TypeError`: for the `days` unit, `_schedule_next_run` puts the key
`'hours'` (not `'hour'`) into the dict passed to `datetime.replace`
(line 148), an invalid keyword for `replace`.  This theorem evaluates the
embedded code at that failing input: the raise leaves `next_run` at the
naive `now + period` value of line 137 and no anchor is ever applied. -/
theorem c2_days_anchor_first_run_raises :
    scheduleNextRun 28800000000 28800000000 jC2 =
      ({ jC2 with period := some 86400000000, next_run := some 115200000000 },
        some PyErr.typeError) := by
  rfl

/-! ## Claim C4 -/

/-- C4: for every unit and any `lastRun`, with no anchor time set, the
next-run computation yields exactly `now + interval * unit_duration`
(steps 3-4 of the spec's `computeNextRun`). -/
theorem c4_no_anchor_next_run :
    ∀ (j : Job) (u : TUnit) (now2 now3 : Int),
      j.unit = some u → j.at_time = none → 1 ≤ j.interval →
      scheduleNextRun now2 now3 j =
        ({ j with period := some (j.interval * unitUs u),
                  next_run := some (now2 + j.interval * unitUs u) }, none) := by
  intro j u now2 now3 hu hat _
  simp [scheduleNextRun, hu, hat]

/-- The C4 witness job: `every(2).minutes`, with a populated `lastRun`. -/
def jW4 : Job := { Job.init 2 with unit := some TUnit.minutes, last_run := some 999 }

/-- Witness for C4 at a concrete input. -/
theorem c4_no_anchor_next_run_witness :
    scheduleNextRun 1000 1000 jW4 =
      ({ jW4 with period := some (jW4.interval * unitUs TUnit.minutes),
                  next_run := some (1000 + jW4.interval * unitUs TUnit.minutes) }, none) :=
  c4_no_anchor_next_run jW4 TUnit.minutes 1000 1000 rfl rfl (by decide)

/-! ## Claim C9 -/

/-- C9: on an empty registry `next_run` returns the absent signal (`None`)
and `idle_seconds` raises (`None - datetime.now()` is a `TypeError`)
rather than returning a duration. -/
theorem c9_empty_registry :
    next_run ([] : List Job) = .ok none ∧
    ∀ now : Int, idle_seconds now ([] : List Job) = .error PyErr.typeError :=
  ⟨rfl, fun _ => rfl⟩

/-! ## Claim C6 -/

/-- The C6 job: `every(1).hours`. -/
def jC6 : Job := { Job.init 1 with unit := some TUnit.hours }

/-- C6 counterexample: the claim says a non-zero hour in `at("HH:MM")` on
an `hours`-unit job is rejected as a configuration error.  It is not:
`at("5:30")` succeeds — the hour component is never even parsed for the
`hours` unit; line 175 overwrites it with `0`, and the anchor becomes
`00:30`. -/
theorem c6_hour_component_counterexample :
    Job.at_ jC6 "5:30" = ({ jC6 with at_time := some ⟨0, 30⟩ }, none) := by
  rfl

/-- C6 amended: for `unit == hours`, the hour component of `at("HH:MM")`
is ignored (forced to `0`, never validated); the minute must parse and lie
in `[0, 59]`, and an out-of-range minute fails with the minute-out-of-range
`SchedulerValueError`, leaving the job unchanged. -/
theorem c6_hours_anchor_amended :
    ∀ (j : Job) (tv : String) (hStr mStr : List Char) (m : Int),
      j.unit = some TUnit.hours →
      splitColon tv.toList = [hStr, mStr] →
      pyInt mStr = .ok m →
      ((0 ≤ m ∧ m ≤ 59 →
          Job.at_ j tv = ({ j with at_time := some ⟨0, m.toNat⟩ }, none)) ∧
        (m < 0 ∨ 59 < m →
          Job.at_ j tv = (j, some (PyErr.schedulerValueError VKind.minuteWrong)))) := by
  intro j tv hStr mStr m hu hsplit hm
  have hsplit' : splitColon tv.data = [hStr, mStr] := hsplit
  constructor
  · intro hr
    have hnot : ¬(m < 0 ∨ 59 < m) := by omega
    simp [Job.at_, hu, hsplit', hm, hnot]
  · intro hr
    simp [Job.at_, hu, hsplit', hm, hr]

/-- Witness for the amended C6 at a concrete input (`at("0:45")`). -/
theorem c6_hours_anchor_amended_witness :
    Job.at_ jC6 "0:45" = ({ jC6 with at_time := some ⟨0, 45⟩ }, none) :=
  (c6_hours_anchor_amended jC6 "0:45" ['0'] ['4', '5'] 45 rfl rfl rfl).1 (by decide)

/-! ## Claim C7 -/

/-- The C7 job: `every(1)` with no unit ever selected. -/
def jC7 : Job := Job.init 1

/-- The C7 action. -/
def fC7 : PyAction := .ok 0

/-- C7 counterexample: the claim says a `do(...)` rejected for a missing
unit commits no partial state and in particular leaves no action bound.
In the code, `do` assigns `job_func` (line 125) before
`_schedule_next_run` validates the unit (line 131), so the rejected call
leaves the action bound and the job changed. -/
theorem c7_do_partial_state_counterexample :
    Job.do_ 0 0 jC7 fC7 =
      ({ jC7 with job_func := some fC7 }, some (PyErr.schedulerValueError VKind.generic)) ∧
    ({ jC7 with job_func := some fC7 } : Job) ≠ jC7 :=
  ⟨rfl, by decide⟩

/-- C7 amended: finalizing a job with no unit set fails immediately with
the unset-unit `SchedulerValueError`, and `period`, `next_run` and
`last_run` are untouched — but the action has already been bound
(`job_func` is set) when the error is raised. -/
theorem c7_do_unset_unit_amended :
    ∀ (now2 now3 : Int) (j : Job) (f : PyAction),
      j.unit = none →
      Job.do_ now2 now3 j f =
        ({ j with job_func := some f }, some (PyErr.schedulerValueError VKind.generic)) := by
  intro now2 now3 j f hu
  simp [Job.do_, scheduleNextRun, hu]

/-- Witness for the amended C7 at a concrete input. -/
theorem c7_do_unset_unit_amended_witness :
    Job.do_ 0 0 (Job.init 3) (.ok 1) =
      ({ Job.init 3 with job_func := some (.ok 1) },
        some (PyErr.schedulerValueError VKind.generic)) :=
  c7_do_unset_unit_amended 0 0 (Job.init 3) (.ok 1) rfl

/-! ## Shared helper lemmas about `pyReplace` and hour arithmetic -/

/-- `datetime.replace(minute=m, second=0, microsecond=0)` on the keyword
dict built for the `hours` unit: floors to the hour and adds `m` minutes. -/
lemma pyReplace_hours_kw (t : Int) (m : Nat) (hm : m ≤ 59) :
    pyReplace t [(RKey.minute, m), (RKey.second, 0), (RKey.microsecond, 0)] =
      .ok (t - t % usPerHour + (m : Int) * usPerMin) := by
  have hneg : ¬((60 : Int) ≤ ((m : Nat) : Int) ∨ (60 : Int) ≤ ((0 : Nat) : Int) ∨
      usPerSec ≤ ((0 : Nat) : Int)) := by
    simp only [usPerSec]
    omega
  simp only [pyReplace, List.lookup, List.any_cons, List.any_nil,
    show (RKey.minute == RKey.hours) = false from rfl,
    show (RKey.second == RKey.hours) = false from rfl,
    show (RKey.microsecond == RKey.hours) = false from rfl,
    show (RKey.minute == RKey.minute) = true from rfl,
    show (RKey.second == RKey.minute) = false from rfl,
    show (RKey.second == RKey.second) = true from rfl,
    show (RKey.microsecond == RKey.minute) = false from rfl,
    show (RKey.microsecond == RKey.second) = false from rfl,
    show (RKey.microsecond == RKey.microsecond) = true from rfl,
    Bool.or_self, Bool.false_eq_true, if_false,
    show ∀ (x : Nat) (d : Int), (Option.map (fun n : Nat => (n : Int)) (some x)).getD d = (x : Int)
      from fun x d => rfl]
  rw [if_neg hneg]
  push_cast
  ring_nf

/-! ## Claim C5 -/

/-- The C5 counterexample job: `every(2).hours.at(":30")`, never run. -/
def jC5 : Job := { Job.init 2 with unit := some TUnit.hours, at_time := some ⟨0, 30⟩ }

/-- C5 counterexample: the claim quantifies over jobs with `unit == hours`
and an anchor minute greater than `now`'s minute, asserting `nextRun` falls
within the *current* hour.  With `interval = 2` (anchor minute 30, `now` at
10:15:00) the computation lands at 11:30 — one hour past the current hour —
because the candidate is first projected two hours forward and the backdate
correction removes only one. -/
theorem c5_hours_anchor_counterexample :
    (scheduleNextRun 36900000000 36900000000 jC5).2 = none ∧
    (scheduleNextRun 36900000000 36900000000 jC5).1.next_run = some 41400000000 ∧
    minuteOf 36900000000 = 15 ∧
    hourFloor 41400000000 ≠ hourFloor 36900000000 := by
  decide

/-- C5 amended: restricted to `interval = 1` (the spec's example cadence
"every hour"): with `unit == hours`, anchor minute `m > now.minute` and no
prior run, `nextRun` is the current hour at minute `m`, seconds zero. -/
theorem c5_hours_anchor_amended :
    ∀ (j : Job) (a : AtTime) (now : Int),
      j.interval = 1 → j.unit = some TUnit.hours → j.at_time = some a →
      j.last_run = none → a.minute ≤ 59 → minuteOf now < (a.minute : Int) →
      scheduleNextRun now now j =
        ({ j with period := some usPerHour,
                  next_run := some (hourFloor now + (a.minute : Int) * usPerMin) }, none) ∧
      hourFloor (hourFloor now + (a.minute : Int) * usPerMin) = hourFloor now ∧
      minuteOf (hourFloor now + (a.minute : Int) * usPerMin) = (a.minute : Int) ∧
      secondOf (hourFloor now + (a.minute : Int) * usPerMin) = 0 := by
  intro j a now hi hu hat hlast hm59 hmin
  refine ⟨?_, ?_, ?_, ?_⟩
  · have hkw := pyReplace_hours_kw (now + usPerHour) a.minute hm59
    simp only [scheduleNextRun, hu, hat, hi, hlast, one_mul, unitUs]
    simp [hkw, hmin]
    simp only [hourFloor, usPerHour, usPerMin]
    omega
  · simp only [hourFloor, usPerHour, usPerMin]
    omega
  · simp only [hourFloor, minuteOf, usPerHour, usPerMin]
    omega
  · simp only [hourFloor, secondOf, usPerHour, usPerMin, usPerSec]
    omega

/-- The C5 witness job: `every(1).hours.at(":30")`, never run. -/
def jW5 : Job := { Job.init 1 with unit := some TUnit.hours, at_time := some ⟨0, 30⟩ }

/-- Witness for the amended C5 at `now = 10:15:00`. -/
theorem c5_hours_anchor_amended_witness :
    scheduleNextRun 36900000000 36900000000 jW5 =
      ({ jW5 with period := some usPerHour,
                  next_run := some (hourFloor 36900000000 + ((30 : Nat) : Int) * usPerMin) },
        none) ∧
    hourFloor (hourFloor 36900000000 + ((30 : Nat) : Int) * usPerMin) = hourFloor 36900000000 ∧
    minuteOf (hourFloor 36900000000 + ((30 : Nat) : Int) * usPerMin) = ((30 : Nat) : Int) ∧
    secondOf (hourFloor 36900000000 + ((30 : Nat) : Int) * usPerMin) = 0 :=
  c5_hours_anchor_amended jW5 ⟨0, 30⟩ 36900000000 rfl rfl rfl rfl (by decide) (by decide)

/-! ## Helper: characterization of the due-selection -/

def dueB (now : Int) (j : Job) : Bool :=
  match j.next_run with
  | some t => decide (t ≤ now)
  | none => false

def insortP (key : Nat → Int) (x : Nat) : List Nat → List Nat
  | [] => [x]
  | y :: ys => if key x ≤ key y then x :: y :: ys else y :: insortP key x ys

def sortIdxP (key : Nat → Int) (ds : List Nat) : List Nat :=
  ds.foldl (fun acc i => insortP key i acc) []

def Rk (key : Nat → Int) (i j : Nat) : Prop :=
  key i ≤ key j ∧ (key i = key j → j < i)

lemma mem_insortP (key : Nat → Int) (x : Nat) :
    ∀ (l : List Nat) (a : Nat), a ∈ insortP key x l ↔ a = x ∨ a ∈ l := by
  intro l
  induction l with
  | nil => intro a; simp [insortP]
  | cons y ys ih =>
    intro a
    by_cases h : key x ≤ key y
    · simp [insortP, h]
    · simp only [insortP, if_neg h, List.mem_cons, ih a]
      tauto

lemma pairwise_insortP (key : Nat → Int) (x : Nat) :
    ∀ (l : List Nat), l.Pairwise (Rk key) → (∀ y ∈ l, y < x) →
      (insortP key x l).Pairwise (Rk key) := by
  intro l
  induction l with
  | nil => intro _ _; simp [insortP, List.Pairwise]
  | cons y ys ih =>
    intro hp hx
    rcases List.pairwise_cons.mp hp with ⟨hy, hys⟩
    by_cases h : key x ≤ key y
    · rw [insortP, if_pos h]
      refine List.pairwise_cons.mpr ⟨?_, hp⟩
      intro z hz
      rcases List.mem_cons.mp hz with rfl | hz'
      · exact ⟨h, fun _ => hx z (List.mem_cons_self _ _)⟩
      · exact ⟨le_trans h (hy z hz').1, fun _ => hx z (List.mem_cons.mpr (Or.inr hz'))⟩
    · rw [insortP, if_neg h]
      have hyx : key y < key x := lt_of_not_le h
      refine List.pairwise_cons.mpr ⟨?_, ih hys (fun z hz => hx z (List.mem_cons.mpr (Or.inr hz)))⟩
      intro z hz
      rcases (mem_insortP key x ys z).mp hz with rfl | hz'
      · exact ⟨le_of_lt hyx, fun he => absurd he (ne_of_lt hyx)⟩
      · exact hy z hz'

lemma sortFoldP (key : Nat → Int) :
    ∀ (ds acc : List Nat), acc.Pairwise (Rk key) → ds.Pairwise (· < ·) →
      (∀ y ∈ acc, ∀ x ∈ ds, y < x) →
      (ds.foldl (fun a i => insortP key i a) acc).Pairwise (Rk key) ∧
      ∀ a, a ∈ ds.foldl (fun a i => insortP key i a) acc ↔ a ∈ acc ∨ a ∈ ds := by
  intro ds
  induction ds with
  | nil => intro acc hacc _ _; exact ⟨hacc, by simp⟩
  | cons x rest ih =>
    intro acc hacc hds hcross
    rcases List.pairwise_cons.mp hds with ⟨hxr, hrest⟩
    have hacc' : (insortP key x acc).Pairwise (Rk key) :=
      pairwise_insortP key x acc hacc (fun y hy => hcross y hy x (List.mem_cons_self _ _))
    have hcross' : ∀ y ∈ insortP key x acc, ∀ z ∈ rest, y < z := by
      intro y hy z hz
      rcases (mem_insortP key x acc y).mp hy with rfl | hy'
      · exact hxr z hz
      · exact hcross y hy' z (List.mem_cons.mpr (Or.inr hz))
    have hmain := ih (insortP key x acc) hacc' hrest hcross'
    refine ⟨hmain.1, ?_⟩
    intro a
    rw [List.foldl_cons, hmain.2 a, mem_insortP]
    constructor
    · rintro ((rfl | h) | h)
      · exact Or.inr (List.mem_cons_self _ _)
      · exact Or.inl h
      · exact Or.inr (List.mem_cons.mpr (Or.inr h))
    · rintro (h | h)
      · exact Or.inl (Or.inr h)
      · rcases List.mem_cons.mp h with rfl | h'
        · exact Or.inl (Or.inl rfl)
        · exact Or.inr h'

lemma insortIdxE_eq (jobs : List Job) (i : Nat) :
    ∀ (l : List Nat),
      ((jobs.getD i dJob).next_run).isSome →
      (∀ y ∈ l, ((jobs.getD y dJob).next_run).isSome) →
      insortIdxE jobs i l = .ok (insortP (keyOf jobs) i l) := by
  intro l
  induction l with
  | nil => intro _ _; rfl
  | cons y ys ih =>
    intro hi hl
    rcases Option.isSome_iff_exists.mp hi with ⟨xi, hxi⟩
    rcases Option.isSome_iff_exists.mp (hl y (List.mem_cons_self _ _)) with ⟨xy, hxy⟩
    have hkey_i : keyOf jobs i = xi := by rw [keyOf, hxi]; rfl
    have hkey_y : keyOf jobs y = xy := by rw [keyOf, hxy]; rfl
    have hlt : jobLtE (jobs.getD i dJob) (jobs.getD y dJob) = .ok (decide (xi ≤ xy)) := by
      simp only [jobLtE, hxi, hxy]
    by_cases h : xi ≤ xy
    · have hd : decide (xi ≤ xy) = true := decide_eq_true h
      simp only [insortIdxE, hlt, Bind.bind, Except.bind, hd, insortP, hkey_i, hkey_y,
        if_pos h, eq_self_iff_true, if_true]
    · have hd : decide (xi ≤ xy) = false := decide_eq_false h
      have ihr := ih hi (fun z hz => hl z (List.mem_cons.mpr (Or.inr hz)))
      simp only [insortIdxE, hlt, Bind.bind, Except.bind, hd, insortP, hkey_i, hkey_y,
        if_neg h, ihr, Bool.false_eq_true, if_false]

lemma sortIdxE_fold_eq (jobs : List Job) :
    ∀ (ds acc : List Nat),
      (∀ y ∈ ds, ((jobs.getD y dJob).next_run).isSome) →
      (∀ y ∈ acc, ((jobs.getD y dJob).next_run).isSome) →
      List.foldlM (fun acc i => insortIdxE jobs i acc) acc ds =
        .ok (ds.foldl (fun a i => insortP (keyOf jobs) i a) acc) := by
  intro ds
  induction ds with
  | nil => intro acc _ _; rfl
  | cons x rest ih =>
    intro acc hds hacc
    have hx : ((jobs.getD x dJob).next_run).isSome := hds x (List.mem_cons_self _ _)
    have hstep := insortIdxE_eq jobs x acc hx hacc
    have hacc' : ∀ y ∈ insortP (keyOf jobs) x acc, ((jobs.getD y dJob).next_run).isSome := by
      intro y hy
      rcases (mem_insortP (keyOf jobs) x acc y).mp hy with rfl | hy'
      · exact hx
      · exact hacc y hy'
    have ihr := ih (insortP (keyOf jobs) x acc)
      (fun z hz => hds z (List.mem_cons.mpr (Or.inr hz))) hacc'
    simp only [List.foldlM, hstep, Bind.bind, Except.bind, ihr, List.foldl_cons]

lemma sortIdxE_eq (jobs : List Job) (ds : List Nat)
    (h : ∀ y ∈ ds, ((jobs.getD y dJob).next_run).isSome) :
    sortIdxE jobs ds = .ok (sortIdxP (keyOf jobs) ds) :=
  sortIdxE_fold_eq jobs ds [] h (by simp)

lemma filterME_shouldRun (now : Int) (jobs : List Job) :
    ∀ (l : List Nat) (ds : List Nat),
      filterME (fun i => (jobs.getD i dJob).should_run now) l = .ok ds →
      (∀ i ∈ l, ((jobs.getD i dJob).next_run).isSome) ∧
      ds = l.filter (fun i => dueB now (jobs.getD i dJob)) := by
  intro l
  induction l with
  | nil =>
    intro ds h
    refine ⟨by simp, ?_⟩
    simpa [filterME] using (Except.ok.inj h).symm
  | cons x xs ih =>
    intro ds h
    rcases hx : (jobs.getD x dJob).next_run with _ | t
    · exfalso
      have hsr : (jobs.getD x dJob).should_run now = .error .typeError := by
        simp only [Job.should_run, hx]
      simp only [filterME, hsr, Bind.bind, Except.bind] at h
      exact Except.noConfusion h
    · have hsr : (jobs.getD x dJob).should_run now = .ok (decide (t ≤ now)) := by
        simp only [Job.should_run, hx]
      rcases hrec : filterME (fun i => (jobs.getD i dJob).should_run now) xs with e | r
      · exfalso
        simp only [filterME, hsr, hrec, Bind.bind, Except.bind] at h
        exact Except.noConfusion h
      · simp only [filterME, hsr, hrec, Bind.bind, Except.bind] at h
        have hds : ds = if decide (t ≤ now) = true then x :: r else r := (Except.ok.inj h).symm
        rcases ih r hrec with ⟨hall, hr⟩
        refine ⟨?_, ?_⟩
        · intro i hi
          rcases List.mem_cons.mp hi with rfl | hi'
          · rw [hx]; rfl
          · exact hall i hi'
        · rw [hds, hr, List.filter_cons]
          have hdb : dueB now (jobs.getD x dJob) = decide (t ≤ now) := by
            simp only [dueB, hx]
          rw [hdb]

lemma dueIdxE_ok (now : Int) (jobs : List Job) (ds : List Nat)
    (h : dueIdxE now jobs = .ok ds) :
    (∀ i ∈ ds, ((jobs.getD i dJob).next_run).isSome) ∧
    ds.Pairwise (· < ·) ∧
    (∀ i, i ∈ ds ↔ i < jobs.length ∧ dueB now (jobs.getD i dJob)) := by
  rcases filterME_shouldRun now jobs (List.range jobs.length) ds h with ⟨hall, hds⟩
  subst hds
  refine ⟨?_, ?_, ?_⟩
  · intro i hi
    exact hall i (List.mem_of_mem_filter hi)
  · exact (List.pairwise_lt_range _).filter _
  · intro i
    rw [List.mem_filter, List.mem_range]

lemma dueSorted_ok (now : Int) (jobs : List Job) (L : List Nat)
    (h : dueSorted now jobs = .ok L) :
    (∀ i, i ∈ L ↔ i < jobs.length ∧ dueB now (jobs.getD i dJob)) ∧
    L.Pairwise (Rk (keyOf jobs)) := by
  rcases hd : dueIdxE now jobs with e | ds
  · rw [dueSorted, hd] at h
    exact absurd (h : (Except.error e : Except PyErr (List Nat)) = .ok L) (by simp)
  · rw [dueSorted, hd] at h
    have h' : sortIdxE jobs ds = .ok L := h
    rcases dueIdxE_ok now jobs ds hd with ⟨hall, hpl, hmem⟩
    rw [sortIdxE_eq jobs ds hall] at h'
    have hL : L = sortIdxP (keyOf jobs) ds := (Except.ok.inj h').symm
    subst hL
    rcases sortFoldP (keyOf jobs) ds [] (by simp [List.Pairwise]) hpl (by simp) with ⟨hp, hm⟩
    refine ⟨?_, hp⟩
    intro i
    rw [sortIdxP, hm i]
    simp [hmem i]

/-! ## Claim C1 -/

/-- C1 amended: for every registry state and instant `now` on which the
selection succeeds, the due-job selection of `run_pending` returns exactly
the (indices of the) jobs whose `nextRun <= now` (membership iff, with no
duplicates), ordered ascending by `nextRun` — but two due jobs with equal
`nextRun` appear in *reverse* registration order, because `__lt__` is
implemented as `<=`, which makes the sort's placement anti-stable on ties. -/
theorem c1_due_selection_amended :
    ∀ (now : Int) (jobs : List Job) (L : List Nat),
      dueSorted now jobs = .ok L →
      (∀ i, i ∈ L ↔ i < jobs.length ∧ ∃ t, (jobs.getD i dJob).next_run = some t ∧ t ≤ now) ∧
      L.Nodup ∧
      L.Pairwise (fun i j => keyOf jobs i ≤ keyOf jobs j) ∧
      L.Pairwise (fun i j => keyOf jobs i = keyOf jobs j → j < i) := by
  intro now jobs L h
  rcases dueSorted_ok now jobs L h with ⟨hmem, hp⟩
  refine ⟨?_, ?_, ?_, ?_⟩
  · intro i
    rw [hmem i]
    constructor
    · rintro ⟨hlen, hdue⟩
      refine ⟨hlen, ?_⟩
      rcases hx : (jobs.getD i dJob).next_run with _ | t
      · simp only [dueB, hx] at hdue
        exact absurd hdue (by simp)
      · simp only [dueB, hx] at hdue
        exact ⟨t, rfl, of_decide_eq_true hdue⟩
    · rintro ⟨hlen, t, hx, hle⟩
      refine ⟨hlen, ?_⟩
      simp only [dueB, hx]
      exact decide_eq_true hle
  · refine hp.imp ?_
    intro a b hr hab
    subst hab
    exact absurd (hr.2 rfl) (lt_irrefl a)
  · exact hp.imp (fun hr => hr.1)
  · exact hp.imp (fun hr => hr.2)

/-- The C1 counterexample registry: two due jobs sharing `next_run` 100. -/
def jobsC1 : List Job :=
  [{ Job.init 1 with next_run := some 100 }, { Job.init 2 with next_run := some 100 }]

/-- C1 counterexample: the claim says equal-`nextRun` due jobs keep their
registration order.  With two jobs both due at 100, the selection returns
the references in order `[1, 0]` — the later registration first — so the
"insertion order" pairwise property fails on the output. -/
theorem c1_tie_order_counterexample :
    dueSorted 100 jobsC1 = .ok [1, 0] ∧
    ¬ List.Pairwise (fun i j => keyOf jobsC1 i = keyOf jobsC1 j → i < j) [1, 0] := by
  constructor
  · rfl
  · intro hp
    have h10 := (List.pairwise_cons.mp hp).1 0 (by simp)
    have hk : keyOf jobsC1 1 = keyOf jobsC1 0 := rfl
    exact absurd (h10 hk) (by decide)

/-- The C1 witness registry: three jobs, distinct `next_run`s, one not due. -/
def jobsW1 : List Job :=
  [{ Job.init 1 with next_run := some 5 }, { Job.init 1 with next_run := some 3 },
    { Job.init 1 with next_run := some 9 }]

/-- Witness for the amended C1 at a concrete registry and instant. -/
theorem c1_due_selection_amended_witness :
    (∀ i, i ∈ ([1, 0] : List Nat) ↔ i < jobsW1.length ∧
        ∃ t, (jobsW1.getD i dJob).next_run = some t ∧ t ≤ 6) ∧
    ([1, 0] : List Nat).Nodup ∧
    ([1, 0] : List Nat).Pairwise (fun i j => keyOf jobsW1 i ≤ keyOf jobsW1 j) ∧
    ([1, 0] : List Nat).Pairwise (fun i j => keyOf jobsW1 i = keyOf jobsW1 j → j < i) :=
  c1_due_selection_amended 6 jobsW1 [1, 0] (by rfl)

/-! ## Claim C10 machinery -/

lemma filterME_shouldRun_err (now : Int) (jobs : List Job) :
    ∀ (l : List Nat), (∃ i ∈ l, (jobs.getD i dJob).next_run = none) →
      filterME (fun i => (jobs.getD i dJob).should_run now) l = .error PyErr.typeError := by
  intro l
  induction l with
  | nil => rintro ⟨i, hi, _⟩; exact absurd hi (List.not_mem_nil i)
  | cons x xs ih =>
    rintro ⟨i, hi, hnone⟩
    rcases hx : (jobs.getD x dJob).next_run with _ | t
    · have hsr : (jobs.getD x dJob).should_run now = .error .typeError := by
        simp only [Job.should_run, hx]
      simp only [filterME, hsr, Bind.bind, Except.bind]
    · rcases List.mem_cons.mp hi with rfl | hi'
      · exact absurd hnone (by rw [hx]; simp)
      · have hsr : (jobs.getD x dJob).should_run now = .ok (decide (t ≤ now)) := by
          simp only [Job.should_run, hx]
        have ihr := ih ⟨i, hi', hnone⟩
        simp only [filterME, hsr, ihr, Bind.bind, Except.bind]

lemma jobLtE_right_none (a b : Job) (h : b.next_run = none) :
    jobLtE a b = .error PyErr.typeError := by
  rcases ha : a.next_run with _ | t
  · simp only [jobLtE, ha, h]
  · simp only [jobLtE, ha, h]

lemma jobLtE_left_none (a b : Job) (h : a.next_run = none) :
    jobLtE a b = .error PyErr.typeError := by
  simp only [jobLtE, h]

lemma pyMinFold_none_err :
    ∀ (l : List Job) (best : Job),
      ((best.next_run = none ∧ l ≠ []) ∨ (∃ j ∈ l, j.next_run = none)) →
      l.foldlM (fun best x => do
        let b ← jobLtE x best
        pure (if b then x else best)) best = .error PyErr.typeError := by
  intro l
  induction l with
  | nil =>
    rintro best (⟨_, hne⟩ | ⟨j, hj, _⟩)
    · exact absurd rfl hne
    · exact absurd hj (List.not_mem_nil j)
  | cons x xs ih =>
    rintro best hyp
    by_cases hb : best.next_run = none
    · have hlt := jobLtE_right_none x best hb
      simp only [List.foldlM, hlt, Bind.bind, Except.bind]
    · rcases hx : x.next_run with _ | tx
      · have hlt := jobLtE_left_none x best hx
        simp only [List.foldlM, hlt, Bind.bind, Except.bind]
      · have hxs : ∃ j ∈ xs, j.next_run = none := by
          rcases hyp with ⟨hbn, _⟩ | ⟨j, hj, hjn⟩
          · exact absurd hbn hb
          · rcases List.mem_cons.mp hj with rfl | hj'
            · exact absurd hjn (by rw [hx]; simp)
            · exact ⟨j, hj', hjn⟩
        have hlt : jobLtE x best = .ok (decide (tx ≤ (best.next_run).getD 0)) := by
          rcases hbv : best.next_run with _ | tb
          · exact absurd hbv hb
          · simp only [jobLtE, hx, hbv, Option.getD_some]
        have ihr := ih (if decide (tx ≤ (best.next_run).getD 0) then x else best)
          (Or.inr hxs)
        simp only [Bind.bind, Except.bind, pure, Except.pure] at ihr
        simp only [List.foldlM, hlt, Bind.bind, Except.bind, pure, Except.pure]
        exact ihr

/-! ## Claim C10 -/

/-- C10 amended: if the registry holds a job with an absent `nextRun`
(registered via `every(...)` but never finalized), `run_pending` always
fails with `TypeError` while evaluating the due check, leaving the registry
untouched; the registry-minimum query `next_run` fails with `TypeError`
whenever the registry holds at least two jobs (a singleton registry never
compares and returns the absent value instead — see the counterexample). -/
theorem c10_unfinalized_job_amended :
    (∀ (jobs : List Job) (i : Nat), i < jobs.length →
      (jobs.getD i dJob).next_run = none →
      ∀ (now : Int) (clocks : Nat → Int × Int),
        run_pending now clocks jobs = (jobs, some PyErr.typeError)) ∧
    (∀ (jobs : List Job) (i : Nat), i < jobs.length →
      (jobs.getD i dJob).next_run = none → 2 ≤ jobs.length →
      next_run jobs = .error PyErr.typeError) := by
  constructor
  · intro jobs i hi hnone now clocks
    have hdue : dueIdxE now jobs = .error PyErr.typeError :=
      filterME_shouldRun_err now jobs (List.range jobs.length)
        ⟨i, List.mem_range.mpr hi, hnone⟩
    have hds : dueSorted now jobs = .error PyErr.typeError := by
      rw [dueSorted, hdue]
    rw [run_pending, hds]
  · intro jobs i hi hnone hlen
    match jobs, hi, hnone, hlen with
    | j0 :: rest, hi, hnone, hlen =>
      have hrest : rest ≠ [] := by
        intro h
        subst h
        simp at hlen
      have hdisj : (j0.next_run = none ∧ rest ≠ []) ∨ ∃ j ∈ rest, j.next_run = none := by
        by_cases h0 : j0.next_run = none
        · exact Or.inl ⟨h0, hrest⟩
        · right
          match i, hi, hnone with
          | 0, _, hnone => exact absurd hnone h0
          | n + 1, hi, hnone =>
            refine ⟨rest.getD n dJob, ?_, hnone⟩
            have hn : n < rest.length := by simpa using hi
            rw [List.getD_eq_getElem rest dJob hn]
            exact List.getElem_mem hn
      have hfold := pyMinFold_none_err rest j0 hdisj
      simp only [next_run, List.isEmpty_cons, Bool.false_eq_true, if_false, pyMinJob, hfold]

/-- C10 counterexample: `every(1)` registers an unfinalized job (absent
`nextRun`) — yet on the singleton registry holding only that job, the
`next_run` query does *not* fail with a type error: builtin `min` performs
no comparison on a one-element list, so the property returns the job's
`None` as if it were the empty-registry signal. -/
theorem c10_singleton_counterexample :
    (every [] 1).1 = [Job.init 1] ∧
    (Job.init 1).next_run = none ∧
    next_run (every [] 1).1 = .ok none ∧
    next_run (every [] 1).1 ≠ .error PyErr.typeError :=
  ⟨rfl, rfl, rfl, fun h => Except.noConfusion h⟩

/-- The C10 witness registry: an unfinalized job next to a finalized one. -/
def jobs10 : List Job := [Job.init 1, { Job.init 1 with next_run := some 5 }]

/-- Witness for the amended C10 at a concrete registry. -/
theorem c10_unfinalized_job_amended_witness :
    run_pending 0 (fun _ => (0, 0)) jobs10 = (jobs10, some PyErr.typeError) ∧
    next_run jobs10 = .error PyErr.typeError :=
  ⟨c10_unfinalized_job_amended.1 jobs10 0 (by decide) rfl 0 (fun _ => (0, 0)),
    c10_unfinalized_job_amended.2 jobs10 0 (by decide) rfl (by decide)⟩

/-! ## Claim C8 machinery -/

lemma getD_set_self {α : Type} (l : List α) (d : α) (i : Nat) :
    (l.set i (l.getD i d)).getD i d = l.getD i d := by
  induction l generalizing i with
  | nil => rfl
  | cons a l ih =>
    cases i with
    | zero => rfl
    | succ n => exact ih n

lemma getD_set_ne {α : Type} (l : List α) (d : α) (i k : Nat) (x : α) (h : k ≠ i) :
    (l.set i x).getD k d = l.getD k d := by
  induction l generalizing i k with
  | nil => rfl
  | cons a l ih =>
    cases i with
    | zero =>
      cases k with
      | zero => exact absurd rfl h
      | succ m => rfl
    | succ n =>
      cases k with
      | zero => rfl
      | succ m => exact ih n m (fun hh => h (by rw [hh]))

lemma getD_mem_of_lt {α : Type} (l : List α) (d : α) (k : Nat) (h : k < l.length) :
    l.getD k d ∈ l := by
  rw [List.getD_eq_getElem l d h]
  exact List.getElem_mem h

lemma getD_range_eq (n m : Nat) (h : m < n) : (List.range n).getD m 0 = m := by
  rw [List.getD_eq_getElem _ 0 (by simpa using h)]
  apply List.getElem_range

lemma execSeq_fail :
    ∀ (L : List Nat) (jobs : List Job) (clocks : Nat → Int × Int) (k : Nat) (e : PyErr),
      L.Nodup → k < L.length →
      (jobs.getD (L.getD k 0) dJob).job_func = some (Except.error e) →
      (∀ m, m < k → (Job.run (clocks m).1 (clocks m).2 (jobs.getD (L.getD m 0) dJob)).2.1 = none) →
      ∃ js', execSeq clocks jobs L = (js', some e) ∧
        js'.getD (L.getD k 0) dJob = jobs.getD (L.getD k 0) dJob := by
  intro L
  induction L with
  | nil => intro jobs clocks k e _ hk _ _; exact absurd hk (by simp)
  | cons i rest ih =>
    intro jobs clocks k e hnd hk hfail hpre
    rcases List.nodup_cons.mp hnd with ⟨hir, hndr⟩
    match k, hk, hfail, hpre with
    | 0, _, hfail, _ =>
      have hfail0 : (jobs.getD i dJob).job_func = some (Except.error e) := hfail
      have hrun : Job.run (clocks 0).1 (clocks 0).2 (jobs.getD i dJob) =
          (jobs.getD i dJob, some e, none) := by
        simp only [Job.run, hfail0]
      refine ⟨jobs.set i (jobs.getD i dJob), ?_, getD_set_self jobs dJob i⟩
      simp only [execSeq, hrun]
    | n + 1, hk, hfail, hpre =>
      have h0 : (Job.run (clocks 0).1 (clocks 0).2 (jobs.getD i dJob)).2.1 = none :=
        hpre 0 (by omega)
      have hn : n < rest.length := by simpa using hk
      have hne : rest.getD n 0 ≠ i := by
        intro hh
        exact hir (hh ▸ getD_mem_of_lt rest 0 n hn)
      have hfail' :
          (((jobs.set i (Job.run (clocks 0).1 (clocks 0).2 (jobs.getD i dJob)).1).getD
            (rest.getD n 0) dJob)).job_func = some (Except.error e) := by
        rw [getD_set_ne jobs dJob i (rest.getD n 0) _ hne]
        exact hfail
      have hpre' : ∀ m, m < n →
          (Job.run ((fun q => clocks (q + 1)) m).1 ((fun q => clocks (q + 1)) m).2
            (((jobs.set i (Job.run (clocks 0).1 (clocks 0).2 (jobs.getD i dJob)).1).getD
              (rest.getD m 0) dJob))).2.1 = none := by
        intro m hm
        have hnem : rest.getD m 0 ≠ i := by
          intro hh
          exact hir (hh ▸ getD_mem_of_lt rest 0 m (by omega))
        rw [getD_set_ne jobs dJob i (rest.getD m 0) _ hnem]
        exact hpre (m + 1) (by omega)
      obtain ⟨js', hjs, hpres⟩ :=
        ih (jobs.set i (Job.run (clocks 0).1 (clocks 0).2 (jobs.getD i dJob)).1)
          (fun q => clocks (q + 1)) n e hndr hn hfail' hpre'
      refine ⟨js', ?_, ?_⟩
      · simp only [execSeq, h0]
        exact hjs
      · rw [show ((i :: rest).getD (n + 1) 0) = rest.getD n 0 from rfl, hpres,
          getD_set_ne jobs dJob i (rest.getD n 0) _ hne]

/-! ## Claim C8 -/

/-- C8: a job whose action raises during `run_pending` or `run_all` has the
exception propagate to the caller uncaught, and its own `last_run` and
`next_run` are not updated (the job value at its registry position is
unchanged), so its due state is intact for the next poll.  `k` is the
position of the failing job in the execution order; all jobs executed
before it are assumed to complete normally (after the first raise the loop
aborts, so only the first raiser's action raises within one call). -/
theorem c8_action_error_propagates :
    (∀ (now : Int) (clocks : Nat → Int × Int) (jobs : List Job) (L : List Nat) (k : Nat)
        (e : PyErr),
      dueSorted now jobs = .ok L → k < L.length →
      (jobs.getD (L.getD k 0) dJob).job_func = some (Except.error e) →
      (∀ m, m < k →
        (Job.run (clocks m).1 (clocks m).2 (jobs.getD (L.getD m 0) dJob)).2.1 = none) →
      ∃ js', run_pending now clocks jobs = (js', some e) ∧
        js'.getD (L.getD k 0) dJob = jobs.getD (L.getD k 0) dJob) ∧
    (∀ (delay : Int) (clocks : Nat → Int × Int) (jobs : List Job) (k : Nat) (e : PyErr),
      k < jobs.length →
      (jobs.getD k dJob).job_func = some (Except.error e) →
      (∀ m, m < k → (Job.run (clocks m).1 (clocks m).2 (jobs.getD m dJob)).2.1 = none) →
      ∃ js', run_all delay clocks jobs = (js', some e) ∧
        js'.getD k dJob = jobs.getD k dJob) := by
  constructor
  · intro now clocks jobs L k e hds hk hfail hpre
    have hnodup : L.Nodup := by
      rcases dueSorted_ok now jobs L hds with ⟨_, hp⟩
      refine hp.imp ?_
      intro a b hr hab
      subst hab
      exact absurd (hr.2 rfl) (lt_irrefl a)
    have hrp : run_pending now clocks jobs = execSeq clocks jobs L := by
      rw [run_pending, hds]
    obtain ⟨js', hjs, hpres⟩ := execSeq_fail L jobs clocks k e hnodup hk hfail hpre
    exact ⟨js', by rw [hrp]; exact hjs, hpres⟩
  · intro delay clocks jobs k e hk hfail hpre
    have hkL : k < (List.range jobs.length).length := by simpa using hk
    have hfail' : (jobs.getD ((List.range jobs.length).getD k 0) dJob).job_func =
        some (Except.error e) := by
      rw [getD_range_eq _ _ hk]
      exact hfail
    have hpre' : ∀ m, m < k →
        (Job.run (clocks m).1 (clocks m).2
          (jobs.getD ((List.range jobs.length).getD m 0) dJob)).2.1 = none := by
      intro m hm
      rw [getD_range_eq _ _ (by omega)]
      exact hpre m hm
    obtain ⟨js', hjs, hpres⟩ :=
      execSeq_fail (List.range jobs.length) jobs clocks k e (List.nodup_range _) hkL
        hfail' hpre'
    refine ⟨js', ?_, ?_⟩
    · rw [run_all]
      exact hjs
    · rw [getD_range_eq _ _ hk] at hpres
      exact hpres

/-- The C8 witness registry: one due job whose action raises. -/
def jobs8 : List Job :=
  [{ Job.init 1 with next_run := some 50, job_func := some (.error .valueError) }]

/-- Witness for C8: a single due job whose action raises `ValueError`. -/
theorem c8_action_error_propagates_witness :
    (∃ js', run_pending 100 (fun _ => (0, 0)) jobs8 = (js', some PyErr.valueError) ∧
      js'.getD 0 dJob = jobs8.getD 0 dJob) ∧
    (∃ js', run_all 0 (fun _ => (0, 0)) jobs8 = (js', some PyErr.valueError) ∧
      js'.getD 0 dJob = jobs8.getD 0 dJob) :=
  ⟨c8_action_error_propagates.1 100 (fun _ => (0, 0)) jobs8 [0] 0 PyErr.valueError (by rfl)
      (by decide) rfl (fun m hm => absurd hm (by omega)),
    c8_action_error_propagates.2 0 (fun _ => (0, 0)) jobs8 0 PyErr.valueError (by decide)
      rfl (fun m hm => absurd hm (by omega))⟩

/-! ## Claim C3 -/

/-- C3: a due, well-formed job (valid unit, `interval >= 1`, anchor only in
the reachable `hours` form with `nextRun` minute-aligned to the anchor)
whose action completes normally gets `lastRun` set to the execution
instant (`now1`, the clock reading of line 161) and a strictly larger
`nextRun`, at least one full period beyond its previous value.  `now2` is
the later clock reading used by the reschedule; `nr <= now1` states the job
was due at execution time. -/
theorem c3_run_updates :
    ∀ (j : Job) (u : TUnit) (nr now1 now2 v : Int),
      j.unit = some u → j.next_run = some nr → 1 ≤ j.interval →
      j.job_func = some (Except.ok v) →
      (∀ a, j.at_time = some a →
        u = TUnit.hours ∧ a.minute ≤ 59 ∧ nr % usPerHour = (a.minute : Int) * usPerMin) →
      nr ≤ now1 → now1 ≤ now2 →
      ∃ j' nr', Job.run now1 now2 j = (j', none, some v) ∧
        j'.last_run = some now1 ∧ j'.next_run = some nr' ∧
        nr + j.interval * unitUs u ≤ nr' ∧ nr < nr' := by
  intro j u nr now1 now2 v hu hnr hint hfunc hinv hdue h12
  rcases hat : j.at_time with _ | a
  · have hsched : scheduleNextRun now2 now2
        { j with job_func := some (Except.ok v), last_run := some now1 } =
        ({ j with
            job_func := some (Except.ok v)
            last_run := some now1
            period := some (j.interval * unitUs u)
            next_run := some (now2 + j.interval * unitUs u) }, none) := by
      simp only [scheduleNextRun, hu, hat]
    refine ⟨{ j with
        job_func := some (Except.ok v)
        last_run := some now1
        period := some (j.interval * unitUs u)
        next_run := some (now2 + j.interval * unitUs u) },
      now2 + j.interval * unitUs u, ?_, rfl, rfl, ?_, ?_⟩
    · simp only [Job.run, hfunc, hsched]
    · exact add_le_add_right (le_trans hdue h12) _
    · have hpos : 0 < unitUs u := by cases u <;> decide
      have hPpos : 0 < j.interval * unitUs u := mul_pos (by omega) hpos
      have h2 : nr ≤ now2 := le_trans hdue h12
      linarith
  · obtain ⟨huh, hm59, hmod⟩ := hinv a hat
    subst huh
    have hkw := pyReplace_hours_kw (now2 + j.interval * usPerHour) a.minute hm59
    have hsched : scheduleNextRun now2 now2
        { j with job_func := some (Except.ok v), last_run := some now1 } =
        ({ j with
            job_func := some (Except.ok v)
            last_run := some now1
            period := some (j.interval * usPerHour)
            next_run := some (now2 + j.interval * usPerHour -
              (now2 + j.interval * usPerHour) % usPerHour + (a.minute : Int) * usPerMin) },
          none) := by
      simp only [scheduleNextRun, hu, hat, unitUs]
      simp [hkw]
    refine ⟨{ j with
        job_func := some (Except.ok v)
        last_run := some now1
        period := some (j.interval * usPerHour)
        next_run := some (now2 + j.interval * usPerHour -
          (now2 + j.interval * usPerHour) % usPerHour + (a.minute : Int) * usPerMin) },
      now2 + j.interval * usPerHour -
        (now2 + j.interval * usPerHour) % usPerHour + (a.minute : Int) * usPerMin,
      ?_, rfl, rfl, ?_, ?_⟩
    · simp only [Job.run, hfunc, hsched]
    · simp only [unitUs, usPerHour, usPerMin] at hmod ⊢
      have h2 : nr ≤ now2 := le_trans hdue h12
      omega
    · simp only [unitUs, usPerHour, usPerMin] at hmod ⊢
      have h2 : nr ≤ now2 := le_trans hdue h12
      omega

/-- The C3 witness job: `every(1).seconds`, due at 50, action returns 7. -/
def jW3 : Job :=
  { Job.init 1 with unit := some TUnit.seconds, next_run := some 50, job_func := some (.ok 7) }

/-- Witness for C3: a one-second job due at 50, run with clocks 60 and 61. -/
theorem c3_run_updates_witness :
    ∃ j' nr', Job.run 60 61 jW3 = (j', none, some 7) ∧
      j'.last_run = some 60 ∧ j'.next_run = some nr' ∧
      50 + jW3.interval * unitUs TUnit.seconds ≤ nr' ∧ 50 < nr' :=
  c3_run_updates jW3 TUnit.seconds 50 60 61 7 rfl rfl (by decide) rfl
    (fun _ ha => Option.noConfusion ha) (by decide) (by decide)
